import Mathlib

/-!
# Verification of the StudioGrade audio converter demo

Shallow embedding of the logic in `src/js/app.js` (file handling, validation,
batch conversion scheduling, simulated conversion) together with theorems
settling the specification's claims about it.

JS numbers are modelled as `ℚ` (all arithmetic the embedded code performs is
exact at the inputs considered), JS strings as `String` or as `List Char`
where index arithmetic matters, and JS arrays as `List`.
-/

set_option autoImplicit false

namespace StudioGrade

universe u v

variable {α : Type u} {β : Type v}

/-- JS `Math.round`: round half towards positive infinity. -/
def jsRound (q : ℚ) : ℤ := ⌊q + 1 / 2⌋

/-- The `sizes` array of `formatFileSize` (source line 559). -/
def sizeUnits : List String := ["Bytes", "KB", "MB", "GB", "TB"]

/-- Decimal rendering of `m / 100` the way JS prints the number
`Math.round(x * 100) / 100` (up to two decimals, trailing zeros dropped),
for nonnegative `m`. -/
def renderCenti (m : ℤ) : String :=
  if m % 100 = 0 then toString (m / 100)
  else if m % 10 = 0 then toString (m / 100) ++ "." ++ toString (m % 100 / 10)
  else toString (m / 100) ++ "." ++ toString (m % 100 / 10) ++ toString (m % 10)

/-- `AudioConverter.formatFileSize` (source lines 556-562).  The source
computes the unit index as `Math.floor(Math.log(bytes) / Math.log(1024))`;
for `bytes ≥ 1` that equals `Nat.log 1024 ⌊bytes⌋`, which is how it is
modelled here (no claim evaluates it on `0 < bytes < 1`). -/
def formatFileSize (bytes : ℚ) : String :=
  if bytes = 0 then "0 Bytes"
  else
    let i : ℕ := Nat.log 1024 (⌊bytes⌋.toNat)
    renderCenti (jsRound (bytes / (1024 : ℚ) ^ i * 100)) ++ " " ++ sizeUnits.getD i "undefined"

/-- The numeric value `originalSize * 0.55` computed by
`AudioConverter.estimateOutputSize` (source line 579) before formatting. -/
def estimateOutputSizeVal (originalSize : ℚ) : ℚ := originalSize * (55 / 100)

/-- `AudioConverter.estimateOutputSize` (source lines 578-581): the value
`originalSize * 0.55` rendered by `formatFileSize`. -/
def estimateOutputSize (originalSize : ℚ) : String :=
  formatFileSize (estimateOutputSizeVal originalSize)

/-- The 1 GiB ceiling `maxSize` of `validateFileSize` (source line 732). -/
def maxSizeB : ℕ := 1024 * 1024 * 1024

/-- Return value of `AudioConverter.validateFileSize` (source lines 733-739). -/
structure SizeValidation where
  valid : Bool
  size : ℕ
  maxSize : ℕ
  message : String
deriving DecidableEq

/-- `AudioConverter.validateFileSize` (source lines 731-740). -/
def validateFileSize (size : ℕ) : SizeValidation :=
  { valid := size ≤ maxSizeB
    size := size
    maxSize := maxSizeB
    message :=
      if maxSizeB < size then "File terlalu besar. Maksimum " ++ formatFileSize (maxSizeB : ℚ)
      else "" }

/-- An input file as the core sees it: name, MIME type tag, byte length
(`File` objects handed to `handleFiles`). -/
structure FileR where
  name : List Char
  type : List Char
  size : ℕ
deriving DecidableEq

/-- `AudioConverter.supportedFormats` (source lines 524-538). -/
def supportedFormats : List (List Char) :=
  ["audio/mpeg", "audio/wav", "audio/x-wav", "audio/wave", "audio/aac",
   "audio/ogg", "audio/mp4", "audio/x-m4a", "audio/flac", "audio/x-flac",
   "audio/wma", "audio/webm", "audio/opus"].map String.toList

/-- `AudioConverter.isValidAudioFile` (source lines 546-549):
exact membership in the supported set, or the generic `audio/` category. -/
def isValidAudioFile (f : FileR) : Bool :=
  supportedFormats.contains f.type || f.type.take 6 = String.toList "audio/"

/-- Rejection reason for an unsupported format (source line 135). -/
def unsupportedReason : String := "Format tidak didukung"

/-- Rejection reason for a duplicate file (source line 158). -/
def duplicateReason : String := "File sudah ada dalam daftar"

/-- The duplicate test of `handleFiles` (source lines 151-153):
same name and same byte length. -/
def sameNameSize (c f : FileR) : Bool := f.name = c.name && f.size = c.size

/-- The per-candidate validation chain of `handleFiles` (source lines 130-164),
first matching rule wins: unsupported type, then size ceiling, then duplicate
against the already-accepted list `selectedFiles` (not against the other
candidates of the same call). `none` means the candidate is accepted. -/
def candidateVerdict (already : List FileR) (c : FileR) : Option String :=
  if isValidAudioFile c = false then some unsupportedReason
  else if (validateFileSize c.size).valid = false then some (validateFileSize c.size).message
  else if already.any (sameNameSize c) then some duplicateReason
  else none

/-- The partition of one `handleFiles` call's candidates into
`validFiles` and `invalidFiles` with reasons (source lines 126-164). -/
def handleFilesPartition (already : List FileR) (cands : List FileR) :
    List FileR × List (FileR × String) :=
  (cands.filter (fun c => (candidateVerdict already c).isNone),
   cands.filterMap (fun c => (candidateVerdict already c).map (fun r => (c, r))))

/-- Index of the last `'.'` in a string (JS `lastIndexOf('.')`), `none` when
there is no dot (the source's `-1`). -/
def lastDot : List Char → Option ℕ
  | [] => none
  | c :: cs =>
    match lastDot cs with
    | some i => some (i + 1)
    | none => if c = '.' then some 0 else none

/-- JS `x >>> 0` on an integral value: conversion to an unsigned 32-bit
integer, i.e. `x mod 2^32`. -/
def jsToUint32 (x : ℤ) : ℕ := (x % (2 ^ 32 : ℤ)).toNat

/-- `AudioConverter.getFileExtension` (source lines 569-571):
`filename.slice((filename.lastIndexOf(".") - 1 >>> 0) + 2)`.  A one-argument
`slice` with a nonnegative start clamps the start to the length, i.e. `drop`. -/
def getFileExtension (s : List Char) : List Char :=
  let idx : ℤ := match lastDot s with | some i => (i : ℤ) | none => -1
  s.drop (jsToUint32 (idx - 1) + 2)

/-- The claim's description of the extension helper, stated from the spec's
words for comparison with `getFileExtension`: the substring after the last
dot, empty when there is no dot. -/
def afterLastDot (s : List Char) : List Char :=
  match lastDot s with
  | none => []
  | some i => s.drop (i + 1)

/-- `file.name.replace(/\.[^\x2f.]+$/, '.flac')` (source line 648).  The regex
matches exactly when the segment after the last dot is nonempty and contains
neither `'.'` (automatic after the last dot) nor `'/'`, in which case the
match starts at the last dot; replacement yields the prefix up to the last
dot followed by `".flac"`.  With no match the name is returned unchanged. -/
def convertedName (s : List Char) : List Char :=
  match lastDot s with
  | none => s
  | some i =>
    let ext := s.drop (i + 1)
    if ext ≠ [] ∧ ext.all (fun c => !(c = '.' || c = '/')) then
      s.take i ++ ('.' :: String.toList "flac")
    else s

/-- `this.settings` of the converter (source lines 516-522). -/
structure ConversionSettings where
  outputFormat : String
  sampleRate : ℕ
  channels : ℕ
  bitDepth : ℕ
  codec : String
deriving DecidableEq

/-- The fixed output profile (source lines 516-522). -/
def converterSettings : ConversionSettings :=
  { outputFormat := "FLAC", sampleRate := 96000, channels := 8, bitDepth := 24, codec := "flac" }

/-- The object `convertToFLAC` resolves with (source lines 646-653). -/
structure ConvertedFile where
  originalName : List Char
  convertedName : List Char
  originalSize : ℕ
  estimatedSize : String
  settings : ConversionSettings
  timestamp : String
deriving DecidableEq

/-- The resolution value of `convertToFLAC` for a file (source lines 646-653);
`now` stands for `new Date().toISOString()`. -/
def convertResult (now : String) (f : FileR) : ConvertedFile :=
  { originalName := f.name
    convertedName := convertedName f.name
    originalSize := f.size
    estimatedSize := estimateOutputSize (f.size : ℚ)
    settings := converterSettings
    timestamp := now }

/-!
## The simulated conversion (`convertToFLAC`, source lines 629-668)

Each interval tick adds `Math.random() * 15 + 5` (a value in `[5, 20)`) to
`progress`; when `progress` reaches 100 the promise resolves, otherwise
`progressCallback(Math.min(progress, 100))` fires.  The tick increments are
the model's parameter.  `simulateConv p incs` returns the list of values
passed to the progress callback and, when the promise resolves, the number
of 30 ms ticks consumed before resolution (`none` if the increment supply
runs out first, which cannot happen for increments `≥ 5`).
-/
def simulateConv : ℚ → List ℚ → List ℚ × Option ℕ
  | _, [] => ([], none)
  | p, inc :: rest =>
    if 100 ≤ p + inc then ([], some 1)
    else ((min (p + inc) 100) :: (simulateConv (p + inc) rest).1,
          (simulateConv (p + inc) rest).2.map (· + 1))

/-!
## Batch scheduling

Both batch loops of the source chunk the file list into consecutive windows:
`startConversion` (source lines 309-320) with the constant `batchSize = 10`,
`AudioConverter.batchConvert` (source lines 683-697) with its
`concurrentLimit` parameter, via `files.slice(i, i + limit)` driven by
`for (let i = 0; i < files.length; i += limit)`.
-/

/-- JS `Array.prototype.slice(start, end)` with integral arguments:
negative indices count from the end, then both are clamped to `[0, length]`. -/
def jsSlice (l : List α) (start fin : ℤ) : List α :=
  (l.take (if fin < 0 then max ((l.length : ℤ) + fin) 0 else min fin (l.length : ℤ)).toNat).drop
    (if start < 0 then max ((l.length : ℤ) + start) 0 else min start (l.length : ℤ)).toNat

/-- The chunking `for` loop of `batchConvert` (source lines 683-685), embedded
with explicit fuel: `none` means the fuel ran out with the loop still running,
which models the source's non-termination (the loop index never reaches
`files.length` when the limit is non-positive and the list is non-empty). -/
def chunkLoop (files : List α) (limit : ℤ) : ℕ → ℤ → Option (List (List α))
  | 0, i => if i < (files.length : ℤ) then none else some []
  | fuel + 1, i =>
    if i < (files.length : ℤ) then
      match chunkLoop files limit fuel (i + limit) with
      | none => none
      | some rest => some (jsSlice files i (i + limit) :: rest)
    else some []

/-- `AudioConverter.batchConvert` (source lines 678-700) with the conversion
operation abstracted to the total function `conv` (see
`convert_progress_contract`: the simulated operation always resolves).
Results of a window are collected by `Promise.all` in array order and pushed
window after window; `none` models a call that never returns. -/
def batchConvert (conv : α → β) (files : List α) (limit : ℤ) : Option (List β) :=
  (chunkLoop files limit (files.length + 1) 0).map
    (fun cs => (cs.map (List.map conv)).flatten)

/-- Chunking into windows of size `K`, fuel-driven so that it computes by
structural recursion; `chunks` below instantiates the fuel with the list
length, which always suffices. -/
def chunksFuel (K : ℕ) : ℕ → List α → List (List α)
  | 0, _ => []
  | _ + 1, [] => []
  | fuel + 1, x :: xs => (x :: xs.take (K - 1)) :: chunksFuel K fuel (xs.drop (K - 1))

/-- The window partition both batch loops produce for a positive limit `K`. -/
def chunks (K : ℕ) (l : List α) : List (List α) := chunksFuel K l.length l

/-- Running totals `completedCount + chunk.length` after each window
(source lines 307, 318). -/
def cumFrom (acc : ℕ) : List (List α) → List ℕ
  | [] => []
  | c :: cs => (acc + c.length) :: cumFrom (acc + c.length) cs

/-- The argument sequence of the `updateConversionProgress(completed, total)`
calls issued by `startConversion`, one call after each window
(source lines 318-319). -/
def batchProgressCalls (K : ℕ) (l : List α) : List (ℕ × ℕ) :=
  (cumFrom 0 (chunks K l)).map (fun c => (c, l.length))

/-!
## The executed batch path (`startConversion` / `convertSingleFile`)

`convertSingleFile` (source lines 346-378) awaits the conversion inside
`try`/`catch`: a resolved conversion sets the task's status to `Completed`,
a rejected one is caught and sets the status to `Failed`, and the promise
returned to the window's `Promise.all` never rejects.
-/

/-- Terminal state of one task in the UI (source lines 365-377). -/
inductive TaskStatus
  | completed
  | failed
deriving DecidableEq

/-- A task together with the outcome of its conversion operation:
`none` = the operation resolves, `some e` = it rejects with error `e`. -/
structure FileO where
  file : FileR
  outcome : Option String
deriving DecidableEq

/-- `convertSingleFile` (source lines 346-378): the terminal status the task
reaches, a function of that task's own outcome alone (the `catch` swallows
the error after recording the `Failed` status). -/
def convertSingleFile (f : FileO) : TaskStatus :=
  match f.outcome with
  | none => TaskStatus.completed
  | some _ => TaskStatus.failed

/-- The batch loop of `startConversion` (source lines 306-320): windows of 10,
every task of a window driven to its terminal status, then a batch-progress
call; returns the per-task terminal statuses in submission order and the
batch-progress call sequence. -/
def startConversionRun (files : List FileO) : List TaskStatus × List (ℕ × ℕ) :=
  (((chunks 10 files).map (List.map convertSingleFile)).flatten,
   (cumFrom 0 (chunks 10 files)).map (fun c => (c, files.length)))

/-!
## Timed model of one batch window

Within a window all conversions are dispatched together and awaited by
`Promise.all` (source lines 689-695): a task dispatched at time `start` with
duration `dur` reaches its terminal state at `start + dur`; the window's
`Promise.all` settles at `start + maxDur`, which is when the next window is
dispatched.  Result order within a window is the array order of
`chunk.map(...)`, independent of the durations.
-/

/-- A task with the wall-clock duration of its conversion. -/
structure TimedTask where
  file : FileR
  dur : ℕ
deriving DecidableEq

/-- Settling time of a window's `Promise.all`: the latest task duration. -/
def maxDur (w : List TimedTask) : ℕ := w.foldr (fun t m => max t.dur m) 0

/-- One window dispatched at `start`: each task's result paired with the time
it reached its terminal state, in array order. -/
def runWindow (start : ℕ) (w : List TimedTask) : List (FileR × ℕ) :=
  w.map (fun t => (t.file, start + t.dur))

/-- Sequential processing of the windows (source lines 688-697): window
`j + 1` is dispatched when window `j`'s `Promise.all` settles. -/
def runWindows (start : ℕ) : List (List TimedTask) → List (List (FileR × ℕ))
  | [] => []
  | w :: ws => runWindow start w :: runWindows (start + maxDur w) ws

/-- Dispatch times of the successive windows. -/
def windowStarts (start : ℕ) : List (List TimedTask) → List ℕ
  | [] => []
  | w :: ws => start :: windowStarts (start + maxDur w) ws

/-- The whole timed batch run with window size `K`, started at time 0. -/
def batchRun (tasks : List TimedTask) (K : ℕ) : List (List (FileR × ℕ)) :=
  runWindows 0 (chunks K tasks)

/-- Dispatch times of the windows of `batchRun`. -/
def batchRunStarts (tasks : List TimedTask) (K : ℕ) : List ℕ :=
  windowStarts 0 (chunks K tasks)

/-! ## Infrastructure lemmas about the window partition -/

theorem chunksFuel_congr (K : ℕ) : ∀ (f₁ f₂ : ℕ) (l : List α), l.length ≤ f₁ → l.length ≤ f₂ →
    chunksFuel K f₁ l = chunksFuel K f₂ l := by
  intro f₁
  induction f₁ with
  | zero =>
    intro f₂ l h1 _
    cases l with
    | nil => cases f₂ <;> rfl
    | cons x xs => simp at h1
  | succ f ih =>
    intro f₂ l h1 h2
    cases l with
    | nil => cases f₂ <;> rfl
    | cons x xs =>
      cases f₂ with
      | zero => simp at h2
      | succ f₂' =>
        simp only [chunksFuel]
        congr 1
        apply ih
        · simp only [List.length_drop]
          simp only [List.length_cons] at h1
          omega
        · simp only [List.length_drop]
          simp only [List.length_cons] at h2
          omega

theorem chunks_cons (K : ℕ) (x : α) (xs : List α) :
    chunks K (x :: xs) = (x :: xs.take (K - 1)) :: chunks K (xs.drop (K - 1)) := by
  show chunksFuel K (xs.length + 1) (x :: xs) = _
  simp only [chunksFuel]
  congr 1
  exact chunksFuel_congr K xs.length _ _ (by simp only [List.length_drop]; omega) (le_refl _)

theorem chunksFuel_flatten (K : ℕ) : ∀ (fuel : ℕ) (l : List α), l.length ≤ fuel →
    (chunksFuel K fuel l).flatten = l := by
  intro fuel
  induction fuel with
  | zero =>
    intro l h
    cases l with
    | nil => rfl
    | cons x xs => simp at h
  | succ f ih =>
    intro l h
    cases l with
    | nil => rfl
    | cons x xs =>
      simp only [chunksFuel, List.flatten_cons]
      rw [ih _ (by simp only [List.length_drop]; simp only [List.length_cons] at h; omega)]
      simp [List.take_append_drop]

/-- The windows are a partition of the submitted list, in submission order. -/
theorem chunks_flatten (K : ℕ) (l : List α) : (chunks K l).flatten = l :=
  chunksFuel_flatten K l.length l (le_refl _)

theorem chunksFuel_ne_nil (K : ℕ) : ∀ (fuel : ℕ) (l : List α) (c : List α),
    c ∈ chunksFuel K fuel l → c ≠ [] := by
  intro fuel
  induction fuel with
  | zero => intro l c hc; cases l <;> simp [chunksFuel] at hc
  | succ f ih =>
    intro l c hc
    cases l with
    | nil => simp [chunksFuel] at hc
    | cons x xs =>
      simp only [chunksFuel, List.mem_cons] at hc
      rcases hc with rfl | hc
      · simp
      · exact ih _ _ hc

theorem chunks_ne_nil (K : ℕ) (l : List α) (c : List α) (hc : c ∈ chunks K l) : c ≠ [] :=
  chunksFuel_ne_nil K l.length l c hc

theorem chunksFuel_length (K : ℕ) (hK : 1 ≤ K) : ∀ (fuel : ℕ) (l : List α), l.length ≤ fuel →
    (chunksFuel K fuel l).length = (l.length + K - 1) / K := by
  intro fuel
  induction fuel with
  | zero =>
    intro l h
    cases l with
    | nil => simp [chunksFuel, Nat.div_eq_of_lt (show K - 1 < K by omega)]
    | cons x xs => simp at h
  | succ f ih =>
    intro l h
    cases l with
    | nil => simp [chunksFuel, Nat.div_eq_of_lt (show K - 1 < K by omega)]
    | cons x xs =>
      simp only [chunksFuel, List.length_cons]
      rw [ih _ (by simp only [List.length_drop]; simp only [List.length_cons] at h; omega)]
      rw [List.length_drop]
      have hxk : xs.length + 1 + K - 1 = xs.length + K := by omega
      rw [hxk, Nat.add_div_right _ (by omega)]
      by_cases hc : K - 1 ≤ xs.length
      · have hrw : xs.length - (K - 1) + K - 1 = xs.length := by omega
        rw [hrw]
      · have h1 : xs.length - (K - 1) = 0 := by omega
        have h2 : (0 + K - 1) / K = 0 := Nat.div_eq_of_lt (by omega)
        have h3 : xs.length / K = 0 := Nat.div_eq_of_lt (by omega)
        rw [h1, h2, h3]

/-- There are exactly `⌈N / K⌉` windows. -/
theorem chunks_length (K : ℕ) (hK : 1 ≤ K) (l : List α) :
    (chunks K l).length = (l.length + K - 1) / K :=
  chunksFuel_length K hK l.length l (le_refl _)

theorem chunks_map_flatten (K : ℕ) (f : α → β) (l : List α) :
    ((chunks K l).map (List.map f)).flatten = l.map f := by
  rw [← List.map_flatten, chunks_flatten]

theorem cumFrom_length (a : ℕ) (cs : List (List α)) : (cumFrom a cs).length = cs.length := by
  induction cs generalizing a with
  | nil => rfl
  | cons c cs ih => simp [cumFrom, ih]

theorem cumFrom_chain (cs : List (List α)) (h : ∀ c ∈ cs, c ≠ []) (a : ℕ) :
    List.Chain' (· < ·) (cumFrom a cs) := by
  induction cs generalizing a with
  | nil => simp [cumFrom]
  | cons c cs ih =>
    rw [cumFrom, List.chain'_cons']
    refine ⟨?_, ih (fun d hd => h d (by simp [hd])) _⟩
    intro y hy
    cases cs with
    | nil => simp [cumFrom] at hy
    | cons d ds =>
      simp only [cumFrom, List.head?_cons, Option.mem_def, Option.some.injEq] at hy
      have hd : d ≠ [] := h d (by simp)
      have : 0 < d.length := List.length_pos.mpr hd
      omega

/-! ## Infrastructure lemmas about the `batchConvert` loop -/

theorem jsSlice_step (files : List α) (i limit : ℤ) (h0 : 0 ≤ i)
    (hlen : i < (files.length : ℤ)) (hlim : 1 ≤ limit) :
    jsSlice files i (i + limit) ++ files.drop (i + limit).toNat = files.drop i.toNat := by
  unfold jsSlice
  rw [if_neg (by omega), if_neg (by omega)]
  rw [min_eq_left (le_of_lt hlen)]
  rw [List.drop_take]
  have hdd : files.drop (i + limit).toNat =
      (files.drop i.toNat).drop ((i + limit).toNat - i.toNat) := by
    rw [List.drop_drop]
    congr 1
    omega
  rw [hdd]
  by_cases hcase : i + limit ≤ (files.length : ℤ)
  · rw [min_eq_left hcase, List.take_append_drop]
  · rw [min_eq_right (by omega)]
    have h1 : ((files.length : ℤ)).toNat = files.length := by omega
    rw [h1]
    have htake : (files.drop i.toNat).take (files.length - i.toNat) = files.drop i.toNat :=
      List.take_of_length_le (by rw [List.length_drop])
    have hdropnil : (files.drop i.toNat).drop ((i + limit).toNat - i.toNat) = [] :=
      List.drop_eq_nil_of_le (by rw [List.length_drop]; omega)
    rw [htake, hdropnil, List.append_nil]

theorem chunkLoop_pos (files : List α) (limit : ℤ) (hlim : 1 ≤ limit) :
    ∀ (fuel : ℕ) (i : ℤ), 0 ≤ i → (files.length : ℤ) ≤ i + fuel * limit →
    ∃ cs, chunkLoop files limit fuel i = some cs ∧ cs.flatten = files.drop i.toNat := by
  intro fuel
  induction fuel with
  | zero =>
    intro i h0 hle
    push_cast at hle
    refine ⟨[], ?_, ?_⟩
    · simp only [chunkLoop]
      rw [if_neg (by omega)]
    · rw [List.drop_eq_nil_of_le (by omega)]
      rfl
  | succ f ih =>
    intro i h0 hle
    have hmul : ((f : ℤ) + 1) * limit = (f : ℤ) * limit + limit := by ring
    push_cast at hle
    rw [hmul] at hle
    by_cases hc : i < (files.length : ℤ)
    · obtain ⟨cs, hcs, hflat⟩ := ih (i + limit) (by omega) (by omega)
      refine ⟨jsSlice files i (i + limit) :: cs, ?_, ?_⟩
      · simp only [chunkLoop]
        rw [if_pos hc, hcs]
      · simp only [List.flatten_cons, hflat]
        exact jsSlice_step files i limit h0 hc hlim
    · refine ⟨[], ?_, ?_⟩
      · simp only [chunkLoop]
        rw [if_neg hc]
      · rw [List.drop_eq_nil_of_le (by omega)]
        rfl

theorem chunkLoop_neg (files : List α) (limit : ℤ) (hlim : limit ≤ 0) (hne : files ≠ []) :
    ∀ (fuel : ℕ) (i : ℤ), i ≤ 0 → chunkLoop files limit fuel i = none := by
  have hpos : 0 < files.length := List.length_pos.mpr hne
  intro fuel
  induction fuel with
  | zero =>
    intro i hi
    simp only [chunkLoop]
    rw [if_pos (by omega)]
  | succ f ih =>
    intro i hi
    simp only [chunkLoop]
    rw [if_pos (by omega), ih (i + limit) (by omega)]

/-- For a positive limit the run terminates and converts every file,
in submission order. -/
theorem batchConvert_pos (conv : α → β) (files : List α) (limit : ℤ) (hlim : 1 ≤ limit) :
    batchConvert conv files limit = some (files.map conv) := by
  have hbound : (files.length : ℤ) ≤ 0 + (files.length + 1 : ℕ) * limit := by
    have h1 : ((files.length + 1 : ℕ) : ℤ) ≤ ((files.length + 1 : ℕ) : ℤ) * limit :=
      le_mul_of_one_le_right (by positivity) hlim
    push_cast at h1 ⊢
    omega
  obtain ⟨cs, hcs, hflat⟩ := chunkLoop_pos files limit hlim (files.length + 1) 0 (le_refl _) hbound
  have hmap : (List.map (List.map conv) cs).flatten = List.map conv files := by
    rw [← List.map_flatten, hflat]
    simp
  calc batchConvert conv files limit
      = some ((List.map (List.map conv) cs).flatten) := by
        simp only [batchConvert, hcs]
        rfl
    _ = some (List.map conv files) := by rw [hmap]

/-! ## Infrastructure lemmas about the timed window model -/

theorem dur_le_maxDur (w : List TimedTask) (t : TimedTask) (ht : t ∈ w) : t.dur ≤ maxDur w := by
  induction w with
  | nil => simp at ht
  | cons u w ih =>
    rcases List.mem_cons.mp ht with rfl | ht
    · simp [maxDur]
    · have := ih ht
      simp only [maxDur, List.foldr_cons] at *
      omega

theorem mem_windowStarts_ge : ∀ (ws : List (List TimedTask)) (s x : ℕ),
    x ∈ windowStarts s ws → s ≤ x := by
  intro ws
  induction ws with
  | nil => intro s x hx; simp [windowStarts] at hx
  | cons w ws ih =>
    intro s x hx
    simp only [windowStarts, List.mem_cons] at hx
    rcases hx with rfl | hx
    · exact le_refl _
    · have := ih _ _ hx
      omega

theorem runWindows_flatten_fst : ∀ (ws : List (List TimedTask)) (s : ℕ),
    ((runWindows s ws).flatten).map Prod.fst = ws.flatten.map TimedTask.file := by
  intro ws
  induction ws with
  | nil => intro s; rfl
  | cons w ws ih =>
    intro s
    simp only [runWindows, List.flatten_cons, List.map_append, ih, runWindow, List.map_map]
    rfl

theorem runWindows_length (ws : List (List TimedTask)) (s : ℕ) :
    (runWindows s ws).length = ws.length := by
  induction ws generalizing s with
  | nil => rfl
  | cons w ws ih => simp [runWindows, ih]

theorem windowStarts_length (ws : List (List TimedTask)) (s : ℕ) :
    (windowStarts s ws).length = ws.length := by
  induction ws generalizing s with
  | nil => rfl
  | cons w ws ih => simp [windowStarts, ih]

theorem windows_barrier : ∀ (ws : List (List TimedTask)) (s : ℕ) (i j : ℕ)
    (hi : i < (runWindows s ws).length) (hj : j < (windowStarts s ws).length), i < j →
    ∀ p ∈ (runWindows s ws).get ⟨i, hi⟩, p.2 ≤ (windowStarts s ws).get ⟨j, hj⟩ := by
  intro ws
  induction ws with
  | nil => intro s i j hi; simp [runWindows] at hi
  | cons w ws ih =>
    intro s i j hi hj hij p hp
    cases j with
    | zero => omega
    | succ j' =>
      have hj' : j' < (windowStarts (s + maxDur w) ws).length := by
        simpa [windowStarts] using hj
      have hgetj : (windowStarts s (w :: ws)).get ⟨j' + 1, hj⟩ =
          (windowStarts (s + maxDur w) ws).get ⟨j', hj'⟩ := rfl
      cases i with
      | zero =>
        have hp' : p ∈ runWindow s w := hp
        obtain ⟨t, ht, rfl⟩ := List.mem_map.mp hp'
        have h1 : s + t.dur ≤ s + maxDur w := by
          have := dur_le_maxDur w t ht; omega
        have h2 : s + maxDur w ≤ (windowStarts (s + maxDur w) ws).get ⟨j', hj'⟩ :=
          mem_windowStarts_ge _ _ _ (List.get_mem _ _ _)
        rw [hgetj]
        exact le_trans h1 h2
      | succ i' =>
        have hi' : i' < (runWindows (s + maxDur w) ws).length := by
          simpa [runWindows] using hi
        have hgeti : (runWindows s (w :: ws)).get ⟨i' + 1, hi⟩ =
            (runWindows (s + maxDur w) ws).get ⟨i', hi'⟩ := rfl
        rw [hgetj]
        exact ih _ i' j' hi' hj' (by omega) p (by rw [hgeti] at hp; exact hp)

/-! ## Infrastructure lemmas about `lastDot` -/

theorem lastDot_lt_length : ∀ (s : List Char) (i : ℕ), lastDot s = some i → i < s.length := by
  intro s
  induction s with
  | nil => intro i h; simp [lastDot] at h
  | cons c cs ih =>
    intro i h
    simp only [lastDot] at h
    cases hcs : lastDot cs with
    | some j =>
      rw [hcs] at h
      simp only [Option.some.injEq] at h
      have := ih j hcs
      simp only [List.length_cons]
      omega
    | none =>
      rw [hcs] at h
      by_cases hc : c = '.'
      · rw [if_pos hc] at h
        simp only [Option.some.injEq] at h
        simp only [List.length_cons]
        omega
      · rw [if_neg hc] at h
        cases h

theorem lastDot_none_no_dot : ∀ (s : List Char), lastDot s = none → '.' ∉ s := by
  intro s
  induction s with
  | nil => intro _ h; simp at h
  | cons c cs ih =>
    intro h
    simp only [lastDot] at h
    cases hcs : lastDot cs with
    | some j => rw [hcs] at h; cases h
    | none =>
      rw [hcs] at h
      by_cases hc : c = '.'
      · rw [if_pos hc] at h; cases h
      · simp only [List.mem_cons, not_or]
        exact ⟨fun he => hc he.symm, ih hcs⟩

theorem lastDot_no_dot_after : ∀ (s : List Char) (i : ℕ), lastDot s = some i →
    '.' ∉ s.drop (i + 1) := by
  intro s
  induction s with
  | nil => intro i h; simp [lastDot] at h
  | cons c cs ih =>
    intro i h
    simp only [lastDot] at h
    cases hcs : lastDot cs with
    | some j =>
      rw [hcs] at h
      simp only [Option.some.injEq] at h
      subst h
      rw [List.drop_succ_cons]
      exact ih j hcs
    | none =>
      rw [hcs] at h
      by_cases hc : c = '.'
      · rw [if_pos hc] at h
        simp only [Option.some.injEq] at h
        subst h
        rw [List.drop_succ_cons, List.drop_zero]
        exact lastDot_none_no_dot cs hcs
      · rw [if_neg hc] at h
        cases h

/-! ## Infrastructure lemmas about the simulated conversion -/

theorem simulateConv_resolves : ∀ (incs : List ℚ) (p : ℚ), (∀ x ∈ incs, 5 ≤ x) → p < 100 →
    100 ≤ p + 5 * incs.length → ∃ n, (simulateConv p incs).2 = some n := by
  intro incs
  induction incs with
  | nil =>
    intro p _ hp hle
    simp only [List.length_nil, Nat.cast_zero, mul_zero, add_zero] at hle
    linarith
  | cons inc rest ih =>
    intro p hall hp hle
    by_cases hres : 100 ≤ p + inc
    · exact ⟨1, by simp [simulateConv, hres]⟩
    · have h5 : 5 ≤ inc := hall inc (by simp)
      have hlen : ((inc :: rest).length : ℚ) = (rest.length : ℚ) + 1 := by
        rw [List.length_cons]
        push_cast
        ring
      obtain ⟨m, hm⟩ := ih (p + inc) (fun x hx => hall x (by simp [hx]))
        (by linarith [not_le.mp hres])
        (by rw [hlen] at hle; linarith)
      exact ⟨m + 1, by simp [simulateConv, hres, hm]⟩

theorem simulateConv_tick_lt : ∀ (incs : List ℚ) (p : ℚ) (n : ℕ), (∀ x ∈ incs, 5 ≤ x) →
    p < 100 → (simulateConv p incs).2 = some n → 1 ≤ n ∧ p + 5 * ((n : ℚ) - 1) < 100 := by
  intro incs
  induction incs with
  | nil => intro p n _ _ h; simp [simulateConv] at h
  | cons inc rest ih =>
    intro p n hall hp h
    by_cases hres : 100 ≤ p + inc
    · have h1 : n = 1 := by
        simp [simulateConv, hres] at h
        omega
      subst h1
      refine ⟨le_refl _, ?_⟩
      push_cast
      simpa using hp
    · simp only [simulateConv, if_neg hres] at h
      cases hm : (simulateConv (p + inc) rest).2 with
      | none => rw [hm] at h; simp at h
      | some m =>
        rw [hm] at h
        simp only [Option.map_some', Option.some.injEq] at h
        subst h
        have h5 : 5 ≤ inc := hall inc (by simp)
        obtain ⟨h1, h2⟩ := ih (p + inc) m (fun x hx => hall x (by simp [hx]))
          (not_le.mp hres) hm
        refine ⟨by omega, ?_⟩
        have hm1 : ((m + 1 : ℕ) : ℚ) - 1 = (m : ℚ) := by push_cast; ring
        rw [hm1]
        have hm2 : (1 : ℚ) ≤ (m : ℚ) := by exact_mod_cast h1
        linarith

theorem simulateConv_reports : ∀ (incs : List ℚ) (p : ℚ), (∀ x ∈ incs, 0 < x) →
    List.Chain' (· < ·) (simulateConv p incs).1 ∧
      ∀ r ∈ (simulateConv p incs).1, p < r ∧ r < 100 := by
  intro incs
  induction incs with
  | nil => intro p _; simp [simulateConv]
  | cons inc rest ih =>
    intro p hall
    have hpos : 0 < inc := hall inc (by simp)
    by_cases hres : 100 ≤ p + inc
    · simp [simulateConv, hres]
    · have hlt : p + inc < 100 := not_le.mp hres
      have hmin : min (p + inc) 100 = p + inc := min_eq_left (le_of_lt hlt)
      obtain ⟨hch, hbd⟩ := ih (p + inc) (fun x hx => hall x (by simp [hx]))
      constructor
      · simp only [simulateConv, if_neg hres, hmin]
        rw [List.chain'_cons']
        exact ⟨fun y hy => (hbd y (List.mem_of_mem_head? hy)).1, hch⟩
      · intro r hr
        simp only [simulateConv, if_neg hres, hmin, List.mem_cons] at hr
        rcases hr with rfl | hr
        · exact ⟨by linarith, hlt⟩
        · exact ⟨by linarith [(hbd r hr).1], (hbd r hr).2⟩

theorem simulateConv_first (inc : ℚ) (rest : List ℚ) (p : ℚ) (h : p + inc < 100) :
    (simulateConv p (inc :: rest)).1 ≠ [] := by
  simp [simulateConv, not_le.mpr h]

/-! ## Claim theorems -/

theorem formatFileSize_max : formatFileSize ((maxSizeB : ℕ) : ℚ) = "1 GB" := by
  have hne : ((maxSizeB : ℕ) : ℚ) ≠ 0 := by norm_num [maxSizeB]
  have hfloor : (⌊((maxSizeB : ℕ) : ℚ)⌋).toNat = maxSizeB := by
    rw [Int.floor_natCast, Int.toNat_natCast]
  have hlog : Nat.log 1024 maxSizeB = 3 :=
    Nat.log_eq_of_pow_le_of_lt_pow (by norm_num [maxSizeB]) (by norm_num [maxSizeB])
  have hq : ((maxSizeB : ℕ) : ℚ) / (1024 : ℚ) ^ 3 * 100 = 100 := by
    norm_num [maxSizeB]
  have hround : jsRound 100 = 100 := by
    rw [jsRound, Int.floor_eq_iff]
    norm_num
  rw [formatFileSize, if_neg hne]
  simp only [hfloor, hlog, hq, hround]
  rfl

/-- C6: validation against the 1 GiB ceiling accepts a file whose size is
exactly the ceiling and rejects one of ceiling + 1 bytes with a too-large
message carrying the formatted ceiling, which renders as "1 GB". -/
theorem size_ceiling_boundary :
    (validateFileSize maxSizeB).valid = true ∧
    (validateFileSize (maxSizeB + 1)).valid = false ∧
    (validateFileSize (maxSizeB + 1)).message =
      "File terlalu besar. Maksimum " ++ formatFileSize ((maxSizeB : ℕ) : ℚ) ∧
    formatFileSize ((maxSizeB : ℕ) : ℚ) = "1 GB" := by
  refine ⟨?_, ?_, ?_, formatFileSize_max⟩
  · simp [validateFileSize]
  · simp [validateFileSize]
  · simp [validateFileSize]

/-- C5 counterexample: at input size 2 bytes the recorded estimate value is
`2 * 0.55 = 1.1`, not `ceil(2 * 0.55) = 2`; no ceiling is applied, and the
descriptor records the formatted string "1.1 Bytes". -/
theorem estimate_not_ceil_at_two :
    estimateOutputSizeVal 2 = 11 / 10 ∧
    (⌈estimateOutputSizeVal 2⌉ : ℤ) = 2 ∧
    estimateOutputSizeVal 2 ≠ ((⌈estimateOutputSizeVal 2⌉ : ℤ) : ℚ) ∧
    estimateOutputSize 2 = "1.1 Bytes" := by
  have hval : estimateOutputSizeVal 2 = 11 / 10 := by norm_num [estimateOutputSizeVal]
  have hceil : (⌈estimateOutputSizeVal 2⌉ : ℤ) = 2 := by
    rw [hval, Int.ceil_eq_iff]
    norm_num
  refine ⟨hval, hceil, ?_, ?_⟩
  · rw [hceil, hval]
    norm_num
  · rw [estimateOutputSize, hval]
    have hne : (11 / 10 : ℚ) ≠ 0 := by norm_num
    have hfloor : (⌊(11 / 10 : ℚ)⌋).toNat = 1 := by
      rw [show ⌊(11 / 10 : ℚ)⌋ = 1 by rw [Int.floor_eq_iff]; norm_num]
      rfl
    have hlog : Nat.log 1024 1 = 0 :=
      Nat.log_eq_of_pow_le_of_lt_pow (by norm_num) (by norm_num)
    have hq : (11 / 10 : ℚ) / (1024 : ℚ) ^ 0 * 100 = 110 := by norm_num
    have hround : jsRound 110 = 110 := by
      rw [jsRound, Int.floor_eq_iff]
      norm_num
    rw [formatFileSize, if_neg hne]
    simp only [hfloor, hlog, hq, hround]
    rfl

/-- C5 amended: the estimate recorded by the conversion is
`inputSize * 0.55` with no rounding applied; it agrees with
`ceil(inputSize * 0.55)` exactly when the input size is a multiple of 20
(0.55 = 11/20 in lowest terms). -/
theorem estimate_eq_ceil_iff (n : ℕ) :
    estimateOutputSizeVal (n : ℚ) = ((⌈estimateOutputSizeVal (n : ℚ)⌉ : ℤ) : ℚ) ↔ 20 ∣ n := by
  have hval : estimateOutputSizeVal (n : ℚ) = (11 * n : ℚ) / 20 := by
    rw [estimateOutputSizeVal]
    ring
  constructor
  · intro h
    have hz : estimateOutputSizeVal (n : ℚ) = ((⌈estimateOutputSizeVal (n : ℚ)⌉ : ℤ) : ℚ) := h
    set z : ℤ := ⌈estimateOutputSizeVal (n : ℚ)⌉ with hzdef
    rw [hval] at hz
    have hzq : (11 * (n : ℚ)) = 20 * (z : ℚ) := by
      field_simp at hz
      linarith
    have hzint : 11 * (n : ℤ) = 20 * z := by exact_mod_cast hzq
    have : (20 : ℤ) ∣ (n : ℤ) := by omega
    exact_mod_cast this
  · rintro ⟨k, rfl⟩
    rw [hval]
    have hsimp : (11 * ((20 * k : ℕ) : ℚ)) / 20 = ((11 * k : ℕ) : ℚ) := by
      push_cast
      ring
    rw [hsimp, Int.ceil_natCast]
    norm_cast

theorem sizeMessage_ne_duplicate (size : ℕ) (h : (validateFileSize size).valid = false) :
    (validateFileSize size).message ≠ duplicateReason := by
  have hlt : maxSizeB < size := by
    simp [validateFileSize] at h
    omega
  simp only [validateFileSize, if_pos hlt]
  intro hmsg
  have hlenmsg := congrArg String.length hmsg
  rw [String.length_append] at hlenmsg
  have h29 : ("File terlalu besar. Maksimum " : String).length = 29 := rfl
  have h27 : duplicateReason.length = 27 := rfl
  rw [h29, h27] at hlenmsg
  omega

/-- C7: a candidate is rejected as a duplicate exactly when a file with the
same name and the same byte length is in the previously accepted set (given
it passes the earlier type and size rules); candidates of the same call are
not checked against each other, so two identical fresh candidates are both
accepted. -/
theorem duplicate_rule (already : List FileR) (c : FileR) :
    ((candidateVerdict already c = some duplicateReason) ↔
      (isValidAudioFile c = true ∧ (validateFileSize c.size).valid = true ∧
        already.any (sameNameSize c) = true)) ∧
    (candidateVerdict already c = none →
      (handleFilesPartition already [c, c]).1 = [c, c]) := by
  constructor
  · rw [candidateVerdict]
    split_ifs with h1 h2 h3
    · simp only [Option.some.injEq]
      constructor
      · intro h
        exact absurd h (by decide)
      · rintro ⟨hv, -, -⟩
        rw [h1] at hv
        cases hv
    · simp only [Option.some.injEq]
      constructor
      · intro h
        exact absurd h (sizeMessage_ne_duplicate c.size h2)
      · rintro ⟨-, hv, -⟩
        rw [h2] at hv
        cases hv
    · simp only [Option.some.injEq, true_iff]
      refine ⟨?_, ?_, h3⟩
      · cases hb : isValidAudioFile c
        · exact absurd hb h1
        · rfl
      · cases hb : (validateFileSize c.size).valid
        · exact absurd hb h2
        · rfl
    · constructor
      · intro h
        cases h
      · rintro ⟨-, -, hv⟩
        exact absurd hv h3
  · intro h
    simp [handleFilesPartition, h]

/-- C9 counterexample: on the real filename ".bashrc" (last dot at index 0)
the helper returns the empty string, not the substring "bashrc" after the
last dot. -/
theorem getFileExtension_leading_dot :
    getFileExtension (String.toList ".bashrc") = [] ∧
    afterLastDot (String.toList ".bashrc") = String.toList "bashrc" ∧
    getFileExtension (String.toList ".bashrc") ≠ afterLastDot (String.toList ".bashrc") := by
  have hld : lastDot (String.toList ".bashrc") = some 0 := by decide
  have hext : getFileExtension (String.toList ".bashrc") = [] := by
    simp only [getFileExtension, hld, Nat.cast_zero]
    apply List.drop_eq_nil_of_le
    have hu : jsToUint32 ((0 : ℤ) - 1) = 4294967295 := by decide
    rw [hu]
    decide
  have haft : afterLastDot (String.toList ".bashrc") = String.toList "bashrc" := by decide
  refine ⟨hext, haft, ?_⟩
  rw [hext, haft]
  decide

/-- C9 amended: for a filename shorter than 2^32 characters the helper
returns the substring after the last dot whenever the last dot is not the
leading character; for a name with no dot, or whose last dot is at index 0,
it returns the empty string. -/
theorem getFileExtension_spec (s : List Char) (hlen : s.length < 2 ^ 32) :
    ((lastDot s = none ∨ lastDot s = some 0) → getFileExtension s = []) ∧
    (∀ i : ℕ, lastDot s = some (i + 1) → getFileExtension s = s.drop (i + 2)) := by
  constructor
  · rintro (h | h)
    · simp only [getFileExtension, h]
      apply List.drop_eq_nil_of_le
      have hu : jsToUint32 ((-1 : ℤ) - 1) = 4294967294 := by decide
      rw [hu]
      omega
    · simp only [getFileExtension, h]
      apply List.drop_eq_nil_of_le
      have hu : jsToUint32 (((0 : ℕ) : ℤ) - 1) = 4294967295 := by decide
      rw [hu]
      omega
  · intro i h
    simp only [getFileExtension, h]
    have hi : i + 1 < s.length := lastDot_lt_length s (i + 1) h
    have hu : jsToUint32 (((i + 1 : ℕ) : ℤ) - 1) = i := by
      rw [jsToUint32]
      have he : ((i + 1 : ℕ) : ℤ) - 1 = (i : ℤ) := by push_cast; ring
      rw [he, Int.emod_eq_of_lt (by positivity) (by exact_mod_cast (by omega : i < 2 ^ 32))]
      exact Int.toNat_natCast i
    rw [hu]

/-- Witness for `getFileExtension_spec` at the filename "a.b". -/
theorem getFileExtension_spec_witness :
    (String.toList "a.b").length < 2 ^ 32 ∧
    getFileExtension (String.toList "a.b") = (String.toList "a.b").drop (0 + 2) := by
  have hlen : (String.toList "a.b").length < 2 ^ 32 := by decide
  exact ⟨hlen, (getFileExtension_spec (String.toList "a.b") hlen).2 0 (by decide)⟩

/-- C8: for any supply of at least 20 tick increments in `[5, 20)` (the range
of `Math.random() * 15 + 5`), the simulated conversion reports progress at
least once before completing, the reported values are strictly increasing
(hence monotonically non-decreasing) and lie within `[0, 100]`, and the
operation resolves after at most 20 ticks, i.e. by 600 ms — strictly before
the 1000 ms error-injection timeout, so the promise settles exactly once
(it can never both resolve and reject). -/
theorem convert_progress_contract (incs : List ℚ)
    (hinc : ∀ x ∈ incs, 5 ≤ x ∧ x < 20) (hlen : 20 ≤ incs.length) :
    ∃ n, (simulateConv 0 incs).2 = some n ∧ 1 ≤ n ∧ n ≤ 20 ∧ 30 * n < 1000 ∧
      (simulateConv 0 incs).1 ≠ [] ∧
      List.Chain' (· < ·) (simulateConv 0 incs).1 ∧
      ∀ r ∈ (simulateConv 0 incs).1, 0 ≤ r ∧ r ≤ 100 := by
  have h5 : ∀ x ∈ incs, 5 ≤ x := fun x hx => (hinc x hx).1
  obtain ⟨n, hn⟩ := simulateConv_resolves incs 0 h5 (by norm_num) (by
    have hc : (20 : ℚ) ≤ (incs.length : ℚ) := by exact_mod_cast hlen
    linarith)
  obtain ⟨h1, h2⟩ := simulateConv_tick_lt incs 0 n h5 (by norm_num) hn
  have hn20 : n ≤ 20 := by
    have hq : (n : ℚ) < 21 := by linarith
    have : n < 21 := by exact_mod_cast hq
    omega
  obtain ⟨hch, hbd⟩ := simulateConv_reports incs 0 (fun x hx => by linarith [(hinc x hx).1])
  have hne : (simulateConv 0 incs).1 ≠ [] := by
    cases incs with
    | nil => simp at hlen
    | cons inc rest =>
      apply simulateConv_first
      have := (hinc inc (by simp)).2
      linarith
  exact ⟨n, hn, h1, hn20, by omega, hne, hch,
    fun r hr => ⟨le_of_lt (hbd r hr).1, le_of_lt (hbd r hr).2⟩⟩

/-- Witness for `convert_progress_contract` with 20 constant increments of 5. -/
theorem convert_progress_contract_witness :
    (∀ x ∈ List.replicate 20 (5 : ℚ), 5 ≤ x ∧ x < 20) ∧
    20 ≤ (List.replicate 20 (5 : ℚ)).length ∧
    (∃ n, (simulateConv 0 (List.replicate 20 (5 : ℚ))).2 = some n ∧ 1 ≤ n ∧ n ≤ 20 ∧
      30 * n < 1000 ∧ (simulateConv 0 (List.replicate 20 (5 : ℚ))).1 ≠ [] ∧
      List.Chain' (· < ·) (simulateConv 0 (List.replicate 20 (5 : ℚ))).1 ∧
      ∀ r ∈ (simulateConv 0 (List.replicate 20 (5 : ℚ))).1, 0 ≤ r ∧ r ≤ 100) := by
  have h1 : ∀ x ∈ List.replicate 20 (5 : ℚ), 5 ≤ x ∧ x < 20 := by
    intro x hx
    rw [List.eq_of_mem_replicate hx]
    norm_num
  have h2 : 20 ≤ (List.replicate 20 (5 : ℚ)).length := by simp
  exact ⟨h1, h2, convert_progress_contract _ h1 h2⟩

theorem startConversionRun_statuses (files : List FileO) :
    (startConversionRun files).1 = files.map convertSingleFile :=
  chunks_map_flatten 10 convertSingleFile files

/-- C2: in the executed batch path every submitted task reaches a terminal
status that is a function of that task's own outcome alone — a failing
operation is recorded as `failed` on its task while the run covers every
task (the status list has one entry per task, in order); replacing one
task's outcome (e.g. making it fail) leaves the terminal status of every
other task unchanged. -/
theorem task_failure_isolated (files : List FileO) (i : ℕ) (g : FileO) :
    (startConversionRun files).1 = files.map convertSingleFile ∧
    (startConversionRun files).1.length = files.length ∧
    (∀ j, j ≠ i →
      ((startConversionRun (files.set i g)).1)[j]? = ((startConversionRun files).1)[j]?) := by
  refine ⟨startConversionRun_statuses files, ?_, ?_⟩
  · rw [startConversionRun_statuses files, List.length_map]
  · intro j hne
    rw [startConversionRun_statuses, startConversionRun_statuses,
      List.getElem?_map, List.getElem?_map, List.getElem?_set_ne (Ne.symm hne)]

/-- Witness for `task_failure_isolated`: a batch of a failing and a
succeeding task — the sibling of the failing task still completes, and
making task 0 fail does not change task 1's status. -/
theorem task_failure_isolated_witness :
    (startConversionRun
        [⟨⟨String.toList "a.wav", String.toList "audio/wav", 10⟩, some "boom"⟩,
         ⟨⟨String.toList "b.wav", String.toList "audio/wav", 20⟩, none⟩]).1 =
      [TaskStatus.failed, TaskStatus.completed] ∧
    ((startConversionRun
        ([⟨⟨String.toList "a.wav", String.toList "audio/wav", 10⟩, some "boom"⟩,
          ⟨⟨String.toList "b.wav", String.toList "audio/wav", 20⟩, none⟩].set 0
          ⟨⟨String.toList "a.wav", String.toList "audio/wav", 10⟩, some "boom"⟩)).1)[1]? =
      ((startConversionRun
        [⟨⟨String.toList "a.wav", String.toList "audio/wav", 10⟩, some "boom"⟩,
         ⟨⟨String.toList "b.wav", String.toList "audio/wav", 20⟩, none⟩]).1)[1]? := by
  have h := task_failure_isolated
    [⟨⟨String.toList "a.wav", String.toList "audio/wav", 10⟩, some "boom"⟩,
     ⟨⟨String.toList "b.wav", String.toList "audio/wav", 20⟩, none⟩] 0
    ⟨⟨String.toList "a.wav", String.toList "audio/wav", 10⟩, some "boom"⟩
  exact ⟨h.1.trans (by decide), h.2.2 1 (by decide)⟩

/-- C3: for every task list and positive window size `K`, the run partitions
the tasks into exactly `⌈N / K⌉` consecutive windows preserving submission
order, and the batch-progress callback fires exactly `⌈N / K⌉` times with
strictly increasing completed counts (each window's count adds all of its
tasks, succeeded or failed). -/
theorem windows_and_batch_progress (l : List FileR) (K : ℕ) (hK : 1 ≤ K) :
    (chunks K l).length = (l.length + K - 1) / K ∧
    (chunks K l).flatten = l ∧
    (batchProgressCalls K l).length = (l.length + K - 1) / K ∧
    List.Chain' (· < ·) ((batchProgressCalls K l).map Prod.fst) := by
  refine ⟨chunks_length K hK l, chunks_flatten K l, ?_, ?_⟩
  · rw [batchProgressCalls, List.length_map, cumFrom_length, chunks_length K hK l]
  · rw [batchProgressCalls, List.map_map]
    have hid : (Prod.fst ∘ fun c : ℕ => (c, l.length)) = id := rfl
    rw [hid, List.map_id]
    exact cumFrom_chain _ (fun c hc => chunks_ne_nil K l c hc) 0

/-- Witness for `windows_and_batch_progress`: three files, window size 2. -/
theorem windows_and_batch_progress_witness :
    (chunks 2 [(⟨String.toList "a.wav", String.toList "audio/wav", 1⟩ : FileR),
        ⟨String.toList "b.wav", String.toList "audio/wav", 2⟩,
        ⟨String.toList "c.wav", String.toList "audio/wav", 3⟩]).length =
      (([(⟨String.toList "a.wav", String.toList "audio/wav", 1⟩ : FileR),
        ⟨String.toList "b.wav", String.toList "audio/wav", 2⟩,
        ⟨String.toList "c.wav", String.toList "audio/wav", 3⟩].length) + 2 - 1) / 2 ∧
    (chunks 2 [(⟨String.toList "a.wav", String.toList "audio/wav", 1⟩ : FileR),
        ⟨String.toList "b.wav", String.toList "audio/wav", 2⟩,
        ⟨String.toList "c.wav", String.toList "audio/wav", 3⟩]).flatten =
      [(⟨String.toList "a.wav", String.toList "audio/wav", 1⟩ : FileR),
        ⟨String.toList "b.wav", String.toList "audio/wav", 2⟩,
        ⟨String.toList "c.wav", String.toList "audio/wav", 3⟩] ∧
    (batchProgressCalls 2 [(⟨String.toList "a.wav", String.toList "audio/wav", 1⟩ : FileR),
        ⟨String.toList "b.wav", String.toList "audio/wav", 2⟩,
        ⟨String.toList "c.wav", String.toList "audio/wav", 3⟩]).length =
      (([(⟨String.toList "a.wav", String.toList "audio/wav", 1⟩ : FileR),
        ⟨String.toList "b.wav", String.toList "audio/wav", 2⟩,
        ⟨String.toList "c.wav", String.toList "audio/wav", 3⟩].length) + 2 - 1) / 2 ∧
    List.Chain' (· < ·)
      ((batchProgressCalls 2 [(⟨String.toList "a.wav", String.toList "audio/wav", 1⟩ : FileR),
        ⟨String.toList "b.wav", String.toList "audio/wav", 2⟩,
        ⟨String.toList "c.wav", String.toList "audio/wav", 3⟩]).map Prod.fst) :=
  windows_and_batch_progress _ 2 (by norm_num)

/-- C4: the flattened batch result lists exactly the submitted tasks in
submission order, for every assignment of task durations (so independently
of which task finishes first within a window), and no task of a later
window is dispatched before every task of any earlier window has reached
its terminal state (the window boundary is a barrier). -/
theorem batch_result_order_and_barrier (tasks : List TimedTask) (K : ℕ) (_hK : 1 ≤ K) :
    ((batchRun tasks K).flatten.map Prod.fst) = tasks.map TimedTask.file ∧
    (batchRun tasks K).length = (batchRunStarts tasks K).length ∧
    (∀ i j (hi : i < (batchRun tasks K).length) (hj : j < (batchRunStarts tasks K).length),
      i < j → ∀ p ∈ (batchRun tasks K).get ⟨i, hi⟩,
        p.2 ≤ (batchRunStarts tasks K).get ⟨j, hj⟩) := by
  refine ⟨?_, ?_, ?_⟩
  · rw [batchRun, runWindows_flatten_fst, chunks_flatten]
  · rw [batchRun, batchRunStarts, runWindows_length, windowStarts_length]
  · intro i j hi hj hij p hp
    exact windows_barrier (chunks K tasks) 0 i j hi hj hij p hp

/-- Witness for `batch_result_order_and_barrier`: three tasks with task 0
slow (duration 5) and task 1 fast (duration 1) in the same window of 2. -/
theorem batch_result_order_and_barrier_witness :
    ((batchRun [(⟨⟨String.toList "a.wav", String.toList "audio/wav", 1⟩, 5⟩ : TimedTask),
        ⟨⟨String.toList "b.wav", String.toList "audio/wav", 2⟩, 1⟩,
        ⟨⟨String.toList "c.wav", String.toList "audio/wav", 3⟩, 2⟩] 2).flatten.map Prod.fst) =
      [(⟨⟨String.toList "a.wav", String.toList "audio/wav", 1⟩, 5⟩ : TimedTask),
        ⟨⟨String.toList "b.wav", String.toList "audio/wav", 2⟩, 1⟩,
        ⟨⟨String.toList "c.wav", String.toList "audio/wav", 3⟩, 2⟩].map TimedTask.file ∧
    (∀ p ∈ (batchRun [(⟨⟨String.toList "a.wav", String.toList "audio/wav", 1⟩, 5⟩ : TimedTask),
        ⟨⟨String.toList "b.wav", String.toList "audio/wav", 2⟩, 1⟩,
        ⟨⟨String.toList "c.wav", String.toList "audio/wav", 3⟩, 2⟩] 2).get ⟨0, by decide⟩,
      p.2 ≤ (batchRunStarts [(⟨⟨String.toList "a.wav", String.toList "audio/wav", 1⟩, 5⟩ : TimedTask),
        ⟨⟨String.toList "b.wav", String.toList "audio/wav", 2⟩, 1⟩,
        ⟨⟨String.toList "c.wav", String.toList "audio/wav", 3⟩, 2⟩] 2).get ⟨1, by decide⟩) := by
  have h := batch_result_order_and_barrier
    [(⟨⟨String.toList "a.wav", String.toList "audio/wav", 1⟩, 5⟩ : TimedTask),
      ⟨⟨String.toList "b.wav", String.toList "audio/wav", 2⟩, 1⟩,
      ⟨⟨String.toList "c.wav", String.toList "audio/wav", 3⟩, 2⟩] 2 (by norm_num)
  exact ⟨h.1, h.2.2 0 1 (by decide) (by decide) (by norm_num)⟩

/-- C1 counterexample: `batchConvert` on an empty task list does not fail —
it returns an empty result (the claim asserts the run fails whenever the
task list is empty). -/
theorem batchConvert_empty_succeeds :
    batchConvert (convertResult "t") ([] : List FileR) 5 = some [] := rfl

/-- C1 amended: the run call never signals an error.  On an empty task list
it returns an empty result for any limit; with a non-positive concurrency
limit and a non-empty task list the loop never terminates (no error is ever
produced); for every positive concurrency limit it returns a `BatchResult`
with one entry per task, in submission order. -/
theorem batchConvert_total_behavior (now : String) (files : List FileR) (limit : ℤ) :
    (1 ≤ limit →
      batchConvert (convertResult now) files limit = some (files.map (convertResult now))) ∧
    (limit ≤ 0 → files ≠ [] → batchConvert (convertResult now) files limit = none) ∧
    batchConvert (convertResult now) ([] : List FileR) limit = some [] := by
  refine ⟨fun h => batchConvert_pos _ files limit h, fun h1 h2 => ?_, rfl⟩
  rw [batchConvert, chunkLoop_neg files limit h1 h2 (files.length + 1) 0 (le_refl 0)]
  rfl

/-- Witness for `batchConvert_total_behavior`: one file converts with limit 1;
with limit -1 the call never returns. -/
theorem batchConvert_total_behavior_witness :
    batchConvert (convertResult "t")
        [⟨String.toList "a.wav", String.toList "audio/wav", 100⟩] 1 =
      some [convertResult "t" ⟨String.toList "a.wav", String.toList "audio/wav", 100⟩] ∧
    batchConvert (convertResult "t")
        [⟨String.toList "a.wav", String.toList "audio/wav", 100⟩] (-1) = none := by
  constructor
  · have h := (batchConvert_total_behavior "t"
      [⟨String.toList "a.wav", String.toList "audio/wav", 100⟩] 1).1 (by norm_num)
    simpa using h
  · exact (batchConvert_total_behavior "t"
      [⟨String.toList "a.wav", String.toList "audio/wav", 100⟩] (-1)).2.1 (by norm_num)
      (by simp)

/-- C10: for a (slash-free) input name, the converted name replaces the final
extension — the nonempty segment after the last dot — by "flac" after the
dot; a name with no dot, or with nothing after its last dot, is returned
unchanged, so the output name is not guaranteed to end in ".flac". -/
theorem convertedName_spec (s : List Char) (hs : ∀ ch ∈ s, ch ≠ '/') :
    (∀ i : ℕ, lastDot s = some i → s.drop (i + 1) ≠ [] →
      convertedName s = s.take i ++ ('.' :: String.toList "flac")) ∧
    (lastDot s = none → convertedName s = s) ∧
    (∀ i : ℕ, lastDot s = some i → s.drop (i + 1) = [] → convertedName s = s) := by
  refine ⟨?_, ?_, ?_⟩
  · intro i h hne
    simp only [convertedName, h]
    have hall : (s.drop (i + 1)).all (fun c => !(c = '.' || c = '/')) = true := by
      rw [List.all_eq_true]
      intro x hx
      have hxd : x ≠ '.' := by
        intro he
        exact lastDot_no_dot_after s i h (he ▸ hx)
      have hxs : x ≠ '/' := hs x (List.mem_of_mem_drop hx)
      simp [hxd, hxs]
    rw [if_pos ⟨hne, hall⟩]
  · intro h
    simp only [convertedName, h]
  · intro i h hnil
    simp only [convertedName, h]
    rw [if_neg]
    intro hcon
    exact hcon.1 hnil

/-- Witness for `convertedName_spec` at "song.wav" (extension replaced)
and, via the no-dot part, at "noext" (returned unchanged). -/
theorem convertedName_spec_witness :
    (∀ ch ∈ String.toList "song.wav", ch ≠ '/') ∧
    convertedName (String.toList "song.wav") =
      (String.toList "song.wav").take 4 ++ ('.' :: String.toList "flac") ∧
    convertedName (String.toList "noext") = String.toList "noext" := by
  have hs : ∀ ch ∈ String.toList "song.wav", ch ≠ '/' := by decide
  have hs2 : ∀ ch ∈ String.toList "noext", ch ≠ '/' := by decide
  exact ⟨hs, (convertedName_spec _ hs).1 4 (by decide) (by decide),
    (convertedName_spec _ hs2).2.1 (by decide)⟩

/-- Witness for `duplicate_rule`: resubmitting an accepted (name, size) pair
is rejected as a duplicate, and two identical fresh candidates in the same
call are both accepted. -/
theorem duplicate_rule_witness :
    candidateVerdict [⟨String.toList "a.wav", String.toList "audio/wav", 100⟩]
      ⟨String.toList "a.wav", String.toList "audio/wav", 100⟩ = some duplicateReason ∧
    (handleFilesPartition [] [⟨String.toList "b.wav", String.toList "audio/wav", 5⟩,
        ⟨String.toList "b.wav", String.toList "audio/wav", 5⟩]).1 =
      [⟨String.toList "b.wav", String.toList "audio/wav", 5⟩,
        ⟨String.toList "b.wav", String.toList "audio/wav", 5⟩] := by
  constructor
  · exact (duplicate_rule [⟨String.toList "a.wav", String.toList "audio/wav", 100⟩]
      ⟨String.toList "a.wav", String.toList "audio/wav", 100⟩).1.mpr
      ⟨by decide, by decide, by decide⟩
  · exact (duplicate_rule [] ⟨String.toList "b.wav", String.toList "audio/wav", 5⟩).2 (by decide)

end StudioGrade
